import Mathlib

/-!
Verification of the Fixit lint-engine specification against the repository's
source.  The repository's `src/` holds the tutorial notebook
`docs/source/build_a_lint_rule.ipynb`, whose code cells define the
`NoInheritFromObjectRule` lint rule (imperative and declarative variants,
report-only and autofix variants), the `visit_If` / `visit_If_test` traversal
hooks and the `should_skip_file` override.  Those functions are embedded
faithfully below.  The engine they run on (tokenizer, parser, CST, traversal
engine, matcher engine, patch applier) is not part of `src/`; every such
definition is modelled from the specification and marked accordingly in its
doc comment.
-/

namespace Fixit

/-- Characters of a source file, in order. -/
abbrev Chars := List Char

/-- Modelled from the spec: a `Token` of the lossless tokenizer (§3): a lexical
unit carrying its exact text plus trailing trivia.  The model tokenizes one
line per token: `text` is the line's characters and `nl` records whether a
terminating newline (the trailing trivia) follows. -/
structure Tok where
  text : Chars
  nl : Bool
deriving DecidableEq

/-- Reconstruct the exact bytes of one token (text plus trailing trivia). -/
def Tok.render (t : Tok) : Chars :=
  t.text ++ (if t.nl then ['\n'] else [])

/-- Concatenate every token's rendering, in source order. -/
def joinToks : List Tok → Chars
  | [] => []
  | t :: ts => t.render ++ joinToks ts

/-- Modelled from the spec: the tokenizer's splitting loop (§4.1).  `acc` holds
the characters of the line read so far. -/
def splitLinesAux (acc : Chars) : Chars → List Tok
  | [] => if acc.isEmpty then [] else [⟨acc, false⟩]
  | c :: cs =>
    if c = '\n' then ⟨acc, true⟩ :: splitLinesAux [] cs
    else splitLinesAux (acc ++ [c]) cs

/-- Modelled from the spec: the tokenizer (§4.1): converts raw source
characters into tokens such that no character is discarded. -/
def tokenize (src : String) : List Tok :=
  splitLinesAux [] src.data

/-- A character that may appear in an identifier. -/
def isIdentChar (c : Char) : Bool :=
  c.isAlpha || c.isDigit || c = '_'

/-- A character that may separate two arguments of a base-class list
(a comma or a space, kept verbatim as trivia). -/
def isSepChar (c : Char) : Bool :=
  c = ',' || c = ' '

/-- Modelled from the spec: the expression nodes of the CST needed by the
claims (§3 `Node`): an identifier (`cst.Name`, carrying its exact spelling)
or an attribute access (a non-`Name` expression, so that the imperative
`isinstance(arg.value, cst.Name)` check is not vacuous). -/
inductive Expr where
  | name (value : Chars)
  | attrAccess (obj : Expr) (field : Chars)
deriving DecidableEq

/-- Render an expression back to its exact source characters. -/
def renderExpr : Expr → Chars
  | .name v => v
  | .attrAccess o f => renderExpr o ++ '.' :: f

/-- Modelled from the spec: parse the dotted tail of an expression.  `fuel`
bounds the recursion; it is always called with enough fuel. -/
def parseDottedAux (fuel : Nat) (e : Expr) (cs : Chars) : Expr × Chars :=
  match fuel with
  | 0 => (e, cs)
  | fuel + 1 =>
    match cs with
    | [] => (e, [])
    | c :: cs' =>
      if c = '.' then
        if (cs'.takeWhile isIdentChar).isEmpty then (e, c :: cs')
        else
          parseDottedAux fuel (.attrAccess e (cs'.takeWhile isIdentChar))
            (cs'.dropWhile isIdentChar)
      else (e, c :: cs')

/-- Modelled from the spec: parse one (possibly dotted) expression, returning
the node and the unconsumed characters; fails when no identifier starts. -/
def parseExpr (cs : Chars) : Option (Expr × Chars) :=
  if (cs.takeWhile isIdentChar).isEmpty then none
  else some (parseDottedAux cs.length (Expr.name (cs.takeWhile isIdentChar))
    (cs.dropWhile isIdentChar))

/-- Modelled from the spec: an argument node of a class definition's header
(`cst.Arg`): an optional keyword, the value expression, and the separator
trivia (comma/spaces) that follows it in the source. -/
structure RawArg where
  kw : Option Chars
  value : Expr
  sep : Chars
deriving DecidableEq

/-- Render one argument back to its exact source characters. -/
def renderArg (a : RawArg) : Chars :=
  (match a.kw with
   | some k => k ++ ['=']
   | none => []) ++ renderExpr a.value ++ a.sep

/-- Render a list of arguments, in source order. -/
def renderArgs : List RawArg → Chars
  | [] => []
  | a :: rest => renderArg a ++ renderArgs rest

/-- Detect the `ident=` shape that starts a keyword argument: succeeds when
the parsed expression is a plain name followed directly by `=`. -/
def kwSplit : Expr → Chars → Option (Chars × Chars)
  | .name k, c :: cs2 => if c = '=' then some (k, cs2) else none
  | _, _ => none

/-- Modelled from the spec: parse one argument (either `expr` or
`ident=expr`) together with its trailing separator trivia. -/
def parseOneArg (cs : Chars) : Option (RawArg × Chars) :=
  match parseExpr cs with
  | none => none
  | some (e, cs1) =>
    match kwSplit e cs1 with
    | some (k, cs2) =>
      (match parseExpr cs2 with
       | none => none
       | some (v, cs3) =>
         some (⟨some k, v, cs3.takeWhile isSepChar⟩, cs3.dropWhile isSepChar))
    | none => some (⟨none, e, cs1.takeWhile isSepChar⟩, cs1.dropWhile isSepChar)

/-- Modelled from the spec: parse the argument list of a class header, up to
(but not consuming) the closing parenthesis.  `fuel` bounds the loop. -/
def parseArgList (fuel : Nat) (cs : Chars) : Option (List RawArg × Chars) :=
  match fuel with
  | 0 => none
  | fuel + 1 =>
    match cs with
    | [] => some ([], [])
    | c :: cs' =>
      if c = ')' then some ([], c :: cs')
      else
        match parseOneArg (c :: cs') with
        | none => none
        | some (a, r) =>
          match parseArgList fuel r with
          | none => none
          | some (l, r2) => some (a :: l, r2)

/-- Modelled from the spec: `cst.MaybeSentinel` / explicit parenthesis state
of a class header (§4.6, design note on conditional punctuation): `present`
renders the parenthesis unconditionally; `default` renders it only if bases
or keywords remain. -/
inductive MaybeSentinel where
  | default
  | present
deriving DecidableEq

/-- Modelled from the spec: the `cst.ClassDef` node (§3 `Node`): its named
children (name, bases, keywords, body) plus the formatting tokens intrinsic
to its own syntax (indentation, parentheses state, trailing characters after
the colon, the newline, and the raw body lines). -/
structure ClassDef where
  indent : Chars
  cname : Chars
  lpar : MaybeSentinel
  bases : List RawArg
  keywords : List RawArg
  rpar : MaybeSentinel
  trailing : Chars
  nl : Bool
  body : List Tok
deriving DecidableEq

/-- The keyword token of a class definition, including its following space. -/
def classKw : Chars := ['c', 'l', 'a', 's', 's', ' ']

/-- Modelled from the spec: resolution of a parenthesis sentinel at render
time (§4.6): a `default` parenthesis is present iff bases or keywords are
non-empty. -/
def parensShown (c : ClassDef) (s : MaybeSentinel) : Bool :=
  match s with
  | .present => true
  | .default => !(c.bases.isEmpty && c.keywords.isEmpty)

/-- Render the header line of a class definition. -/
def renderClassHeader (c : ClassDef) : Chars :=
  c.indent ++ classKw ++ c.cname
    ++ (if parensShown c c.lpar then ['('] else [])
    ++ renderArgs c.bases ++ renderArgs c.keywords
    ++ (if parensShown c c.rpar then [')'] else [])
    ++ ':' :: c.trailing ++ (if c.nl then ['\n'] else [])

/-- Render a class definition: header line followed by its body lines. -/
def renderClassDef (c : ClassDef) : Chars :=
  renderClassHeader c ++ joinToks c.body

/-- A positional argument (no keyword). -/
def argIsPositional (a : RawArg) : Bool := a.kw.isNone

/-- All keyword arguments come after all positional ones. -/
def argsWellOrdered (args : List RawArg) : Bool :=
  (args.dropWhile argIsPositional).all (fun a => a.kw.isSome)

/-- Does this token's line open a class definition? -/
def isClassHeaderLine (t : Tok) : Bool :=
  classKw.isPrefixOf (t.text.dropWhile (fun c => c = ' '))

/-- Modelled from the spec: parse the parenthesised argument list of a class
header (everything after `(`): the arguments, the closing parenthesis, the
colon, and the verbatim trailing characters.  Positional arguments must
precede keyword arguments; the parsed list is split into bases and
keywords, as `cst.ClassDef` stores them. -/
def parseHeaderArgs (rest3 : Chars) : Option (List RawArg × List RawArg × Chars) :=
  match parseArgList (rest3.length + 1) rest3 with
  | none => none
  | some (args, rest4) =>
    match rest4 with
    | c1 :: c2 :: trail =>
      if c1 = ')' ∧ c2 = ':' ∧ argsWellOrdered args then
        some (args.takeWhile argIsPositional, args.dropWhile argIsPositional, trail)
      else none
    | _ => none

/-- Modelled from the spec: parse a class header after the class name:
either a parenthesised argument list followed by a colon, or a bare colon.
Everything after the colon is kept verbatim as trailing characters. -/
def parseHeaderAfterName (t : Tok) (ind nm rest2 : Chars) : Option ClassDef :=
  match rest2 with
  | [] => none
  | c :: rest3 =>
    if c = '(' then
      match parseHeaderArgs rest3 with
      | none => none
      | some (bs, kws, trail) =>
        some { indent := ind, cname := nm, lpar := .present, bases := bs,
               keywords := kws, rpar := .present, trailing := trail,
               nl := t.nl, body := [] }
    else if c = ':' then
      some { indent := ind, cname := nm, lpar := .default, bases := [],
             keywords := [], rpar := .default, trailing := rest3,
             nl := t.nl, body := [] }
    else none

/-- Modelled from the spec: parse a class header after the `class ` keyword:
the class name, then the rest of the header. -/
def parseHeaderTail (t : Tok) (ind rest1 : Chars) : Option ClassDef :=
  if (rest1.takeWhile isIdentChar).isEmpty then none
  else parseHeaderAfterName t ind (rest1.takeWhile isIdentChar)
    (rest1.dropWhile isIdentChar)

/-- Modelled from the spec: the parser's handling of one class header line
(§4.2): consume the indentation, the `class ` keyword, the class name, the
optional parenthesised argument list and the colon.  Fails (a
`SyntaxError`, as `none`) if the line cannot be parsed. -/
def parseClassHeader (t : Tok) : Option ClassDef :=
  if classKw.isPrefixOf (t.text.dropWhile (fun c => c = ' ')) then
    parseHeaderTail t (t.text.takeWhile (fun c => c = ' '))
      ((t.text.dropWhile (fun c => c = ' ')).drop classKw.length)
  else none

/-- Modelled from the spec: a statement of the module: either a class
definition or a raw line kept verbatim. -/
inductive Stmt where
  | classDef (c : ClassDef)
  | raw (t : Tok)
deriving DecidableEq

/-- Modelled from the spec: the tree root (§3 `Tree`): a module owning the
ordered list of its statements. -/
structure Module where
  stmts : List Stmt
deriving DecidableEq

/-- Render one statement back to its exact source characters. -/
def renderStmt : Stmt → Chars
  | .classDef c => renderClassDef c
  | .raw t => t.render

/-- Render a list of statements, in source order. -/
def renderStmts : List Stmt → Chars
  | [] => []
  | s :: ss => renderStmt s ++ renderStmts ss

/-- Modelled from the spec: the render operation (§3 `Tree`): serialize the
whole tree back to text. -/
def renderModule (m : Module) : Chars :=
  renderStmts m.stmts

/-- Number of leading spaces of a token's line. -/
def lineIndentLen (t : Tok) : Nat :=
  (t.text.takeWhile (fun c => c = ' ')).length

/-- A body line of a class whose header is indented by `n` spaces: any line
indented strictly deeper. -/
def inBody (n : Nat) (t : Tok) : Bool :=
  n < lineIndentLen t

/-- Modelled from the spec: the parser's statement loop (§4.2): consume the
token sequence, attaching every token to exactly one node.  A line opening a
class definition owns as body the maximal run of strictly deeper-indented
lines; any other line is a raw statement.  `fuel` bounds the loop; each step
consumes at least one token, so `fuel = ts.length` always suffices. -/
def parseStmtsF : Nat → List Tok → Option (List Stmt)
  | _, [] => some []
  | 0, _ :: _ => none
  | fuel + 1, t :: ts =>
    if isClassHeaderLine t then
      match parseClassHeader t with
      | none => none
      | some hdr =>
        match parseStmtsF fuel (ts.dropWhile (inBody hdr.indent.length)) with
        | none => none
        | some ss =>
          some (.classDef { hdr with body := ts.takeWhile (inBody hdr.indent.length) } :: ss)
    else
      match parseStmtsF fuel ts with
      | none => none
      | some ss => some (.raw t :: ss)

/-- Modelled from the spec: the parser (§4.2), with enough fuel for the whole
token sequence. -/
def parseStmts (ts : List Tok) : Option (List Stmt) :=
  parseStmtsF ts.length ts

/-- Modelled from the spec: the parser entry point: build the module root
from the token sequence. -/
def parseModule (ts : List Tok) : Option Module :=
  (parseStmts ts).map Module.mk

/-- Modelled from the spec: the front half of the engine pipeline (§2 data
flow): source text → tokenizer → parser → CST. -/
def parseSource (src : String) : Option Module :=
  parseModule (tokenize src)

/-- Modelled from the spec: render the CST back to source text. -/
def renderSource (m : Module) : String :=
  String.mk (renderModule m)

mutual
/-- Modelled from the spec: the match-pattern language (§3 `Match Pattern`,
§4.4, design note on the declarative matcher DSL): pure data describing a
node shape — a wildcard (`DoNotCare`), an identifier with its exact spelling
(`m.Name`), an argument with a sub-pattern for its value (`m.Arg`), a class
definition with a sequence pattern for its `bases` slot (`m.ClassDef`), and
disjunction. -/
inductive Pat where
  | anyPat
  | namePat (value : Chars)
  | argPat (value : Pat)
  | classDefPat (bases : SeqPats)
  | orPat (first second : Pat)
/-- Modelled from the spec: a pattern for a sequence-valued child slot: a
list of elements, each either an exact element pattern or a quantified
repetition constraint (`m.AtLeastN`: at least `n` contiguous elements each
matching `matcher`). -/
inductive SeqPats where
  | nilSeq
  | oneSeq (p : Pat) (rest : SeqPats)
  | atLeastSeq (n : Nat) (matcher : Pat) (rest : SeqPats)
end

/-- A concrete node, as presented to the matcher engine. -/
inductive MNode where
  | expr (e : Expr)
  | arg (a : RawArg)
  | classDef (c : ClassDef)

mutual
/-- Modelled from the spec: the matcher engine (§4.4): purely structural
evaluation of a pattern against a concrete node — compares node kind tags,
recursively matches declared child patterns, and consults literal token text
only where the pattern specifies it (`m.Name`). -/
def mMatches (n : MNode) : Pat → Bool
  | .anyPat => true
  | .namePat v =>
    (match n with
     | .expr (.name w) => w == v
     | _ => false)
  | .argPat vp =>
    (match n with
     | .arg a => mMatches (.expr a.value) vp
     | _ => false)
  | .classDefPat items =>
    (match n with
     | .classDef c => mSeqMatches (c.bases.map MNode.arg) items
     | _ => false)
  | .orPat p q => mMatches n p || mMatches n q
/-- Modelled from the spec: sequence matching (§4.4): the pattern list must
consume the whole child sequence; a quantified element uses a
greedy-with-backtracking strategy equivalent to regular-expression matching
(every split point is tried). -/
def mSeqMatches (ns : List MNode) : SeqPats → Bool
  | .nilSeq => ns.isEmpty
  | .oneSeq p rest =>
    (match ns with
     | [] => false
     | x :: xs => mMatches x p && mSeqMatches xs rest)
  | .atLeastSeq k p rest =>
    (List.range (ns.length + 1)).any (fun j =>
      decide (k ≤ j) && (ns.take j).all (fun x => mMatches x p)
        && mSeqMatches (ns.drop j) rest)
end

/-- The fixed pattern of the tutorial (cell 14) and of §8:
`m.ClassDef(bases=[m.AtLeastN(n=1, matcher=m.Arg(value=m.Name("object")))])`.
This is the spec's shorthand `ClassDef(bases=[AtLeastN(1, Name("object"))])`:
each element of a `ClassDef`'s `bases` slot is an `Arg` node wrapping its
value expression, so the per-element matcher is `Arg(value=Name("object"))`. -/
def objectBasePat : Pat :=
  .classDefPat (.atLeastSeq 1 (.argPat (.namePat "object".data)) .nilSeq)

/-- The imperative check of notebook cell 12 (`visit_ClassDef`, imperative
version): `any(isinstance(arg.value, cst.Name) and arg.value.value ==
"object" for arg in node.bases)`. -/
def hasObjectBaseImperative (node : ClassDef) : Bool :=
  node.bases.any (fun arg =>
    match arg.value with
    | .name v => v == "object".data
    | _ => false)

/-- The declarative check of notebook cell 14 (`visit_ClassDef`, declarative
matcher version): `m.matches(node, m.ClassDef(bases=[m.AtLeastN(n=1,
matcher=m.Arg(value=m.Name("object")))]))`. -/
def hasObjectBaseDeclarative (node : ClassDef) : Bool :=
  mMatches (.classDef node) objectBasePat

/-- One base matches `m.Name("object")` (the per-element predicate shared by
both checks). -/
def argMatchesObject (b : RawArg) : Bool :=
  mMatches (.expr b.value) (.namePat "object".data)

/-- The first statement of the parsed source, when it is a class
definition. -/
def classDefOf (src : String) : Option ClassDef :=
  match parseSource src with
  | some m =>
    (match m.stmts with
     | .classDef c :: _ => some c
     | _ => none)
  | none => none

/-- One `self.report(node, ...)` call recorded by a rule: the message and the
optional replacement node. -/
structure ReportCall where
  message : String
  replacement : Option ClassDef
deriving DecidableEq

/-- The `MESSAGE` attribute of `NoInheritFromObjectRule` (notebook cells 16
and 18). -/
def NoInheritFromObjectRule.MESSAGE : String :=
  "Inheriting from object is a no-op. 'class Foo:' is just fine =)"

/-- `NoInheritFromObjectRule.visit_ClassDef`, autofix version (notebook cell
18): filter out every base whose value matches `m.Name("object")`; if that
changed the bases, reconstruct the class def with the new bases and
`MaybeSentinel.DEFAULT` parentheses, and report with the replacement.  The
returned list holds the `report` calls made for this node. -/
def NoInheritFromObjectRule.visit_ClassDef (node : ClassDef) : List ReportCall :=
  let new_bases :=
    node.bases.filter (fun base => !(mMatches (.expr base.value) (.namePat "object".data)))
  if node.bases ≠ new_bases then
    let new_classdef :=
      { node with bases := new_bases, lpar := MaybeSentinel.default,
                  rpar := MaybeSentinel.default }
    [{ message := NoInheritFromObjectRule.MESSAGE, replacement := some new_classdef }]
  else []

/-- Modelled from the spec: the file-level context handed to a rule
(§6 `should_skip_file` hook): a file-path-like identifier and the flag for
"is this file in a test-designated location". -/
structure Context where
  file_path : String
  in_tests : Bool

/-- `MyRule.should_skip_file` (notebook cell 20): skip files in
test-designated locations by returning `self.context.in_tests`. -/
def MyRule.should_skip_file (ctx : Context) : Bool :=
  ctx.in_tests

/-- Modelled from the spec: the rule contract (§4.5): a named visitor with a
file-skip predicate and a `visit_ClassDef` hook.  The hook returns the list
of `report` calls it makes, or raises an unexpected fault (`Except.error`
with a description, §7). -/
structure LintRule where
  ruleName : String
  should_skip_file : Context → Bool
  visitClassDef : ClassDef → Except String (List ReportCall)

/-- Modelled from the spec: a `Violation` (§3): the originating node
(identified by its statement index in the module), the reporting rule
(identified by its registration index), the message, and the optional
replacement. -/
structure Violation where
  ruleIdx : Nat
  nodeIdx : Nat
  message : String
  replacement : Option ClassDef
deriving DecidableEq

/-- Modelled from the spec: a fault raised by a rule hook, caught at the
per-rule, per-hook boundary and attributed to that rule and node (§7). -/
structure Fault where
  ruleIdx : Nat
  nodeIdx : Nat
  message : String
deriving DecidableEq

/-- One invocation of a rule's visitor hook, recorded for observability:
which rule was invoked on which node. -/
structure HookCall where
  ruleIdx : Nat
  nodeIdx : Nat
deriving DecidableEq

/-- Everything one traversal produces: the reported violations, the caught
faults, and the trace of hook invocations. -/
structure TraversalOut where
  violations : List Violation
  faults : List Fault
  hookCalls : List HookCall
deriving DecidableEq

/-- Concatenate two traversal outputs, in order. -/
def TraversalOut.append (a b : TraversalOut) : TraversalOut :=
  ⟨a.violations ++ b.violations, a.faults ++ b.faults, a.hookCalls ++ b.hookCalls⟩

/-- The part of a traversal output attributed to the rule with registration
index `j`. -/
def TraversalOut.filterRule (j : Nat) (o : TraversalOut) : TraversalOut :=
  ⟨o.violations.filter (fun v => v.ruleIdx == j),
   o.faults.filter (fun f => f.ruleIdx == j),
   o.hookCalls.filter (fun h => h.ruleIdx == j)⟩

/-- Modelled from the spec: invoke one rule's `visit_ClassDef` hook on one
node, catching any fault at the per-rule, per-hook boundary (§7): a fault is
recorded and attributed to the rule and node instead of propagating. -/
def runHook (j : Nat) (r : LintRule) (i : Nat) (c : ClassDef) : TraversalOut :=
  match r.visitClassDef c with
  | .ok reps =>
    ⟨reps.map (fun rep => ⟨j, i, rep.message, rep.replacement⟩), [], [⟨j, i⟩]⟩
  | .error msg => ⟨[], [⟨j, i, msg⟩], [⟨j, i⟩]⟩

/-- Modelled from the spec: invoke the `visit_ClassDef` hook of every active
rule on one node, in registration order (§4.3). -/
def visitClassDefAll : List (Nat × LintRule) → Nat → ClassDef → TraversalOut
  | [], _, _ => ⟨[], [], []⟩
  | p :: rs, i, c => TraversalOut.append (runHook p.1 p.2 i c) (visitClassDefAll rs i c)

/-- Modelled from the spec: visit one statement: class definitions trigger
the `visit_ClassDef` hooks; raw lines have no registered hooks (a missing
hook is a no-op, §4.3). -/
def visitStmt (actives : List (Nat × LintRule)) (i : Nat) : Stmt → TraversalOut
  | .classDef c => visitClassDefAll actives i c
  | .raw _ => ⟨[], [], []⟩

/-- Modelled from the spec: the traversal loop (§4.3): one single-threaded
depth-first walk over the statements, in source order, with all active rules
observing the same traversal. -/
def collectFrom (actives : List (Nat × LintRule)) : Nat → List Stmt → TraversalOut
  | _, [] => ⟨[], [], []⟩
  | i, s :: ss =>
    TraversalOut.append (visitStmt actives i s) (collectFrom actives (i + 1) ss)

/-- Pair every rule with its registration index, starting at `n`. -/
def enumRules : Nat → List LintRule → List (Nat × LintRule)
  | _, [] => []
  | n, r :: rs => (n, r) :: enumRules (n + 1) rs

/-- Modelled from the spec: evaluate every rule's file-skip predicate before
traversal begins (§6): a rule whose predicate returns true takes no part in
the traversal of this file. -/
def activeRules (rules : List LintRule) (ctx : Context) : List (Nat × LintRule) :=
  (enumRules 0 rules).filter (fun p => !p.2.should_skip_file ctx)

/-- Modelled from the spec: run one traversal of the module with the active
rules and collect everything they produce. -/
def collectViolations (rules : List LintRule) (ctx : Context) (m : Module) :
    TraversalOut :=
  collectFrom (activeRules rules ctx) 0 m.stmts

/-- Modelled from the spec: the replacement recorded for node `i`, if any
violation carries one. -/
def replacementFor (vs : List Violation) (i : Nat) : Option ClassDef :=
  match vs.find? (fun v => v.nodeIdx == i && v.replacement.isSome) with
  | some v => v.replacement
  | none => none

/-- Modelled from the spec: the patch applier's substitution pass (§4.6):
rebuild the statement list, substituting each replacement in place of its
originating node and sharing every unaffected statement. -/
def applyRepl (vs : List Violation) : Nat → List Stmt → List Stmt
  | _, [] => []
  | i, s :: ss =>
    (match replacementFor vs i with
     | some c => Stmt.classDef c
     | none => s) :: applyRepl vs (i + 1) ss

/-- Modelled from the spec: conflict detection (§4.6): two violations target
the exact same node with differing replacements. -/
def hasConflict (vs : List Violation) : Bool :=
  vs.any (fun v1 => vs.any (fun v2 =>
    v1.nodeIdx == v2.nodeIdx && v1.replacement.isSome && v2.replacement.isSome
      && !(v1.replacement == v2.replacement)))

/-- Modelled from the spec: the patch applier (§4.6): `none` models raising
`ConflictingFixError` (conflicting replacements for the same node are an
error rather than silently choosing one); otherwise the rewritten tree. -/
def applyFixes (m : Module) (vs : List Violation) : Option Module :=
  if hasConflict vs then none else some ⟨applyRepl vs 0 m.stmts⟩

/-- Modelled from the spec: the outcome of linting one file: the violations
and faults, the hook-invocation trace, the output text after autofix, and
whether autofix was aborted by a `ConflictingFixError`. -/
structure LintReport where
  violations : List Violation
  faults : List Fault
  hookCalls : List HookCall
  output : String
  conflict : Bool
deriving DecidableEq

/-- Modelled from the spec: the engine pipeline for one file (§2, §6):
tokenize, parse (`none` models a fatal `SyntaxError`), traverse with the
registered rules, then apply patches; on a `ConflictingFixError` the file's
text is left unmodified while all violations are still reported. -/
def runEngine (rules : List LintRule) (ctx : Context) (src : String) :
    Option LintReport :=
  match parseSource src with
  | none => none
  | some m =>
    let out := collectViolations rules ctx m
    match applyFixes m out.violations with
    | none => some ⟨out.violations, out.faults, out.hookCalls, src, true⟩
    | some m2 =>
      some ⟨out.violations, out.faults, out.hookCalls, renderSource m2, false⟩

mutual
/-- Modelled from the spec: a tree as seen by the traversal engine (§4.3):
a node has a kind and an ordered list of named child slots, the slots in the
order they appear in the source. -/
inductive VTree where
  | node (kind : String) (slots : List VSlot)
/-- A named child slot holding its ordered children. -/
inductive VSlot where
  | slot (slotName : String) (children : List VTree)
end

/-- A callback event observed by one visitor during traversal:
`enter`/`leave` for a node, `enterSlot`/`leaveSlot` for a named child slot
of a node. -/
inductive VEvent where
  | enter (visitor : String) (kind : String)
  | enterSlot (visitor : String) (kind : String) (slotName : String)
  | leaveSlot (visitor : String) (kind : String) (slotName : String)
  | leave (visitor : String) (kind : String)
deriving DecidableEq

/-- Modelled from the spec: a registered visitor (§4.3): a named set of
hooks, each a state transformer (a missing hook is the identity no-op). -/
structure NodeVisitor (σ : Type) where
  visitorName : String
  onEnter : String → σ → σ
  onEnterSlot : String → String → σ → σ
  onLeaveSlot : String → String → σ → σ
  onLeave : String → σ → σ

/-- Run a list of hooks left to right, threading the state. -/
def applyHooks {σ : Type} : List (σ → σ) → σ → σ
  | [], s => s
  | h :: t, s => applyHooks t (h s)

mutual
/-- Modelled from the spec: the traversal engine (§4.3): one depth-first
walk; at a node, every visitor's `enter` hook runs (in registration order)
before any child slot, then each slot is entered in source order, then every
visitor's `leave` hook runs last. -/
def traverseNode {σ : Type} (vs : List (NodeVisitor σ)) : VTree → σ → σ
  | .node k slots, s =>
    applyHooks (vs.map (fun v => v.onLeave k))
      (traverseSlots vs k slots
        (applyHooks (vs.map (fun v => v.onEnter k)) s))
/-- Modelled from the spec: visit the child slots of node kind `k` strictly
in source order; each slot's `enterSlot` hooks run immediately before its
children and its `leaveSlot` hooks immediately after, before the next
slot. -/
def traverseSlots {σ : Type} (vs : List (NodeVisitor σ)) (k : String) :
    List VSlot → σ → σ
  | [], s => s
  | .slot nm ch :: rest, s =>
    traverseSlots vs k rest
      (applyHooks (vs.map (fun v => v.onLeaveSlot k nm))
        (traverseChildren vs ch
          (applyHooks (vs.map (fun v => v.onEnterSlot k nm)) s)))
/-- Visit the children inside one slot, in order. -/
def traverseChildren {σ : Type} (vs : List (NodeVisitor σ)) :
    List VTree → σ → σ
  | [], s => s
  | t :: ts, s => traverseChildren vs ts (traverseNode vs t s)
end

/-- A visitor that records every callback it receives, in order. -/
def recordingVisitor (nm : String) : NodeVisitor (List VEvent) :=
  ⟨nm,
   fun k s => s ++ [.enter nm k],
   fun k sl s => s ++ [.enterSlot nm k sl],
   fun k sl s => s ++ [.leaveSlot nm k sl],
   fun k s => s ++ [.leave nm k]⟩

mutual
/-- The callback trace the specification's traversal-order property (§8)
prescribes for one node: `enter` events for every visitor in registration
order, then each slot segment in source order, then `leave` events last. -/
def specTraceNode (names : List String) : VTree → List VEvent
  | .node k slots =>
    names.map (fun n => VEvent.enter n k)
      ++ specTraceSlots names k slots
      ++ names.map (fun n => VEvent.leave n k)
/-- The prescribed trace of a slot list: per slot, `enterSlot` events, the
children's traces, `leaveSlot` events, then the following slots. -/
def specTraceSlots (names : List String) (k : String) : List VSlot → List VEvent
  | .nil => []
  | .slot nm ch :: rest =>
    names.map (fun n => VEvent.enterSlot n k nm)
      ++ specTraceChildren names ch
      ++ names.map (fun n => VEvent.leaveSlot n k nm)
      ++ specTraceSlots names k rest
/-- The prescribed trace of a list of sibling children. -/
def specTraceChildren (names : List String) : List VTree → List VEvent
  | .nil => []
  | t :: ts => specTraceNode names t ++ specTraceChildren names ts
end

/-- A concrete lint rule built from `NoInheritFromObjectRule.visit_ClassDef`
(notebook cell 18), never skipping and never faulting. -/
def noInheritLintRule : LintRule :=
  ⟨"NoInheritFromObjectRule", fun _ => false,
   fun c => .ok (NoInheritFromObjectRule.visit_ClassDef c)⟩

/-- A second concrete rule proposing a different replacement for the same
node (renames the class), used to exercise the conflict scenario. -/
def renameToDRule : LintRule :=
  ⟨"RenameToDRule", fun _ => false,
   fun c => .ok [{ message := "rename to D", replacement := some { c with cname := ['D'] } }]⟩

/-- A concrete rule whose hook always raises an unexpected fault. -/
def faultyRule : LintRule :=
  ⟨"FaultyRule", fun _ => false, fun _ => .error "boom"⟩

/-- A concrete rule with the notebook's `should_skip_file` override
(cell 20): skipped for files in test-designated locations. -/
def skipInTestsRule : LintRule :=
  ⟨"MyRule", MyRule.should_skip_file,
   fun c => .ok (NoInheritFromObjectRule.visit_ClassDef c)⟩

/-- A non-test file context. -/
def ctx0 : Context := ⟨"example.py", false⟩

/-- A test-location file context (`in_tests` set). -/
def ctxTests : Context := ⟨"tests/example.py", true⟩

/-- The source text of the autofix scenario (§8). -/
def srcC : String := "class C(object):\n    pass\n"

/-- The body line of `srcC`. -/
def passTok : Tok := ⟨"    pass".data, true⟩

/-- The `ClassDef` node parsed from `srcC`. -/
def classCObj : ClassDef :=
  ⟨[], ['C'], .present, [⟨none, .name "object".data, []⟩], [], .present, [],
   true, [passTok]⟩

/-- `classCObj` after the autofix: no bases, default parentheses. -/
def classCFixed : ClassDef :=
  { classCObj with bases := [], lpar := .default, rpar := .default }

/-- `classCObj` renamed to `D` (the conflicting second replacement). -/
def classCRenamed : ClassDef :=
  { classCObj with cname := ['D'] }

/-- The violation `noInheritLintRule` reports on `srcC`. -/
def vFix : Violation :=
  ⟨0, 0, NoInheritFromObjectRule.MESSAGE, some classCFixed⟩

/-- The violation `renameToDRule` reports on `srcC` when registered second. -/
def vRename : Violation :=
  ⟨1, 0, "rename to D", some classCRenamed⟩

/-- A default lint report, used only to extract a computed report. -/
def emptyReport : LintReport := ⟨[], [], [], "", false⟩

/-- The report the engine computes for the conflict scenario. -/
def conflictReport : LintReport :=
  (runEngine [noInheritLintRule, renameToDRule] ctx0 srcC).getD emptyReport

/-- The module parsed from `srcC`. -/
def moduleC : Module := ⟨[.classDef classCObj]⟩

end Fixit

namespace Fixit

theorem joinToks_splitLinesAux (cs : Chars) :
    ∀ acc : Chars, joinToks (splitLinesAux acc cs) = acc ++ cs := by
  induction cs with
  | nil =>
    intro acc
    by_cases h : acc.isEmpty
    · simp [splitLinesAux, h, joinToks, List.isEmpty_iff.mp h]
    · simp [splitLinesAux, h, joinToks, Tok.render]
  | cons c cs ih =>
    intro acc
    by_cases h : c = '\n'
    · subst h
      simp [splitLinesAux, joinToks, Tok.render, ih]
    · simp [splitLinesAux, h, ih]

/-- The tokenizer invariant of §3: concatenating every token's text and
trivia, in source order, reproduces the original source exactly. -/
theorem joinToks_tokenize (src : String) : joinToks (tokenize src) = src.data := by
  simpa [tokenize] using joinToks_splitLinesAux src.data []

theorem parseDottedAux_render (fuel : Nat) :
    ∀ (e : Expr) (cs : Chars) (e' : Expr) (cs' : Chars),
      parseDottedAux fuel e cs = (e', cs') → renderExpr e' ++ cs' = renderExpr e ++ cs := by
  induction fuel with
  | zero =>
    intro e cs e' cs' h
    simp only [parseDottedAux] at h
    cases h
    rfl
  | succ fuel ih =>
    intro e cs e' cs' h
    match cs with
    | [] =>
      simp only [parseDottedAux] at h
      cases h; rfl
    | c :: cs0 =>
      simp only [parseDottedAux] at h
      by_cases hc : c = '.'
      · rw [if_pos hc] at h
        by_cases hn : (cs0.takeWhile isIdentChar).isEmpty
        · rw [if_pos hn] at h
          cases h; rfl
        · rw [if_neg hn] at h
          have := ih _ _ _ _ h
          rw [this, hc]
          simp only [renderExpr, List.append_assoc, List.cons_append, List.nil_append,
            List.cons.injEq, true_and]
          rw [List.takeWhile_append_dropWhile]
      · rw [if_neg hc] at h
        cases h; rfl

theorem parseExpr_render (cs : Chars) (e : Expr) (r : Chars)
    (h : parseExpr cs = some (e, r)) : renderExpr e ++ r = cs := by
  unfold parseExpr at h
  by_cases hn : (cs.takeWhile isIdentChar).isEmpty
  · simp [hn] at h
  · rw [if_neg hn] at h
    simp only [Option.some.injEq] at h
    have := parseDottedAux_render cs.length (Expr.name (cs.takeWhile isIdentChar))
      (cs.dropWhile isIdentChar) e r
      (by rw [h])
    rw [this, renderExpr, List.takeWhile_append_dropWhile]

theorem kwSplit_eq (e : Expr) (cs1 : Chars) (k cs2 : Chars)
    (h : kwSplit e cs1 = some (k, cs2)) : e = .name k ∧ cs1 = '=' :: cs2 := by
  match e, cs1 with
  | .name k0, c :: cs0 =>
    simp only [kwSplit] at h
    by_cases hc : c = '='
    · rw [if_pos hc] at h
      simp only [Option.some.injEq, Prod.mk.injEq] at h
      obtain ⟨h1, h2⟩ := h
      subst h1; subst h2; subst hc
      exact ⟨rfl, rfl⟩
    · rw [if_neg hc] at h
      exact absurd h (by simp)
  | .name _, [] => exact absurd h (by simp [kwSplit])
  | .attrAccess _ _, _ => exact absurd h (by simp [kwSplit])

theorem parseOneArg_render (cs : Chars) (a : RawArg) (r : Chars)
    (h : parseOneArg cs = some (a, r)) : renderArg a ++ r = cs := by
  unfold parseOneArg at h
  cases hp : parseExpr cs with
  | none => rw [hp] at h; exact absurd h (by simp)
  | some er =>
    obtain ⟨e, cs1⟩ := er
    rw [hp] at h
    dsimp only at h
    have hcs : renderExpr e ++ cs1 = cs := parseExpr_render cs e cs1 hp
    cases hk : kwSplit e cs1 with
    | some kc =>
      obtain ⟨k, cs2⟩ := kc
      rw [hk] at h
      dsimp only at h
      obtain ⟨hek, hc1⟩ := kwSplit_eq e cs1 k cs2 hk
      cases hp2 : parseExpr cs2 with
      | none => rw [hp2] at h; exact absurd h (by simp)
      | some vr =>
        obtain ⟨v, cs3⟩ := vr
        rw [hp2] at h
        dsimp only at h
        simp only [Option.some.injEq, Prod.mk.injEq] at h
        obtain ⟨ha, hr⟩ := h
        have hcs2 : renderExpr v ++ cs3 = cs2 := parseExpr_render cs2 v cs3 hp2
        subst ha
        rw [← hr, renderArg]
        simp only []
        rw [← hcs, hek, hc1, ← hcs2, renderExpr]
        simp [List.takeWhile_append_dropWhile, List.append_assoc]
    | none =>
      rw [hk] at h
      dsimp only at h
      simp only [Option.some.injEq, Prod.mk.injEq] at h
      obtain ⟨ha, hr⟩ := h
      subst ha
      rw [← hr, renderArg]
      simp only []
      rw [← hcs]
      simp [List.takeWhile_append_dropWhile, List.append_assoc]

theorem renderArgs_append (l1 l2 : List RawArg) :
    renderArgs (l1 ++ l2) = renderArgs l1 ++ renderArgs l2 := by
  induction l1 with
  | nil => simp [renderArgs]
  | cons a l ih => simp [renderArgs, ih]

theorem parseArgList_render (fuel : Nat) :
    ∀ (cs : Chars) (l : List RawArg) (r : Chars),
      parseArgList fuel cs = some (l, r) → renderArgs l ++ r = cs := by
  induction fuel with
  | zero => intro cs l r h; exact absurd h (by simp [parseArgList])
  | succ fuel ih =>
    intro cs l r h
    match cs with
    | [] =>
      simp only [parseArgList, Option.some.injEq, Prod.mk.injEq] at h
      obtain ⟨hl, hr⟩ := h
      subst hl; subst hr; rfl
    | c :: cs0 =>
      simp only [parseArgList] at h
      by_cases hc : c = ')'
      · rw [if_pos hc] at h
        simp only [Option.some.injEq, Prod.mk.injEq] at h
        obtain ⟨hl, hr⟩ := h
        subst hl; rw [← hr]; rfl
      · rw [if_neg hc] at h
        cases h1 : parseOneArg (c :: cs0) with
        | none => rw [h1] at h; exact absurd h (by simp)
        | some ar =>
          obtain ⟨a, r1⟩ := ar
          rw [h1] at h
          dsimp only at h
          cases h2 : parseArgList fuel r1 with
          | none => rw [h2] at h; exact absurd h (by simp)
          | some lr =>
            obtain ⟨l2, r2⟩ := lr
            rw [h2] at h
            dsimp only at h
            simp only [Option.some.injEq, Prod.mk.injEq] at h
            obtain ⟨hl, hr⟩ := h
            subst hl
            rw [← hr, renderArgs, List.append_assoc, ih r1 l2 r2 h2,
              parseOneArg_render (c :: cs0) a r1 h1]

theorem isPrefixOf_append_drop {p l : Chars} (h : p.isPrefixOf l = true) :
    p ++ l.drop p.length = l := by
  obtain ⟨t, ht⟩ := List.isPrefixOf_iff_prefix.mp h
  rw [← ht, List.drop_left]

theorem joinToks_append (l1 l2 : List Tok) :
    joinToks (l1 ++ l2) = joinToks l1 ++ joinToks l2 := by
  induction l1 with
  | nil => rfl
  | cons t l ih => simp [joinToks, ih]

theorem parseHeaderArgs_render (rest3 : Chars) (bs kws : List RawArg) (trail : Chars)
    (h : parseHeaderArgs rest3 = some (bs, kws, trail)) :
    renderArgs bs ++ (renderArgs kws ++ ')' :: ':' :: trail) = rest3 := by
  unfold parseHeaderArgs at h
  cases hal : parseArgList (rest3.length + 1) rest3 with
  | none => rw [hal] at h; exact absurd h (by simp)
  | some ar =>
    obtain ⟨args, rest4⟩ := ar
    rw [hal] at h
    dsimp only at h
    match rest4, h with
    | c1 :: c2 :: trail0, h =>
      dsimp only at h
      by_cases hcond : c1 = ')' ∧ c2 = ':' ∧ argsWellOrdered args = true
      · rw [if_pos hcond] at h
        simp only [Option.some.injEq, Prod.mk.injEq] at h
        obtain ⟨hbs, hkws, htrail⟩ := h
        obtain ⟨hc1, hc2, _⟩ := hcond
        subst hbs; subst hkws; subst htrail; subst hc1; subst hc2
        rw [← List.append_assoc, ← renderArgs_append, List.takeWhile_append_dropWhile]
        exact parseArgList_render _ rest3 args _ hal
      · rw [if_neg hcond] at h
        exact absurd h (by simp)

theorem parseHeaderAfterName_render (t : Tok) (ind nm rest2 : Chars) (hdr : ClassDef)
    (h : parseHeaderAfterName t ind nm rest2 = some hdr) :
    renderClassHeader hdr = ind ++ classKw ++ nm ++ rest2 ++ (if t.nl then ['\n'] else [])
      ∧ hdr.body = [] := by
  unfold parseHeaderAfterName at h
  match rest2, h with
  | c :: rest3, h =>
    dsimp only at h
    by_cases hc : c = '('
    · rw [if_pos hc] at h
      cases hha : parseHeaderArgs rest3 with
      | none => rw [hha] at h; exact absurd h (by simp)
      | some bkt =>
        obtain ⟨bs, kws, trail⟩ := bkt
        rw [hha] at h
        dsimp only at h
        simp only [Option.some.injEq] at h
        subst h
        refine ⟨?_, rfl⟩
        have h3 := parseHeaderArgs_render rest3 bs kws trail hha
        subst hc
        simp only [renderClassHeader, parensShown]
        rw [← h3]
        simp [List.append_assoc]
    · rw [if_neg hc] at h
      by_cases hc2 : c = ':'
      · rw [if_pos hc2] at h
        simp only [Option.some.injEq] at h
        subst h
        subst hc2
        refine ⟨?_, rfl⟩
        simp only [renderClassHeader, parensShown, List.isEmpty_nil, Bool.and_self,
          Bool.not_true]
        simp [renderArgs]
      · rw [if_neg hc2] at h
        exact absurd h (by simp)

theorem parseHeaderTail_render (t : Tok) (ind rest1 : Chars) (hdr : ClassDef)
    (h : parseHeaderTail t ind rest1 = some hdr) :
    renderClassHeader hdr = ind ++ classKw ++ rest1 ++ (if t.nl then ['\n'] else [])
      ∧ hdr.body = [] := by
  unfold parseHeaderTail at h
  by_cases hne : (rest1.takeWhile isIdentChar).isEmpty
  · rw [if_pos hne] at h; exact absurd h (by simp)
  · rw [if_neg hne] at h
    obtain ⟨h1, h2⟩ := parseHeaderAfterName_render t ind
      (rest1.takeWhile isIdentChar) (rest1.dropWhile isIdentChar) hdr h
    refine ⟨?_, h2⟩
    rw [h1]
    simp only [List.append_assoc, List.append_cancel_left_eq]
    rw [← List.append_assoc, List.takeWhile_append_dropWhile]

theorem parseClassHeader_render (t : Tok) (hdr : ClassDef)
    (h : parseClassHeader t = some hdr) :
    renderClassHeader hdr = t.render ∧ hdr.body = [] := by
  unfold parseClassHeader at h
  by_cases hpre : classKw.isPrefixOf (t.text.dropWhile (fun c => c = ' '))
  · rw [if_pos hpre] at h
    obtain ⟨h1, h2⟩ := parseHeaderTail_render t _ _ hdr h
    refine ⟨?_, h2⟩
    rw [h1, Tok.render]
    have hsplit : t.text.takeWhile (fun c => c = ' ') ++ t.text.dropWhile (fun c => c = ' ')
        = t.text := List.takeWhile_append_dropWhile _ _
    conv_rhs => rw [← hsplit]
    conv_rhs => rw [← isPrefixOf_append_drop hpre]
    simp [List.append_assoc]
  · rw [if_neg hpre] at h
    exact absurd h (by simp)

theorem renderClassDef_body (hdr : ClassDef) (b : List Tok) :
    renderClassDef { hdr with body := b } = renderClassHeader hdr ++ joinToks b := rfl

theorem parseStmtsF_render (fuel : Nat) :
    ∀ (ts : List Tok) (ss : List Stmt),
      parseStmtsF fuel ts = some ss → renderStmts ss = joinToks ts := by
  induction fuel with
  | zero =>
    intro ts ss h
    match ts with
    | [] =>
      simp only [parseStmtsF, Option.some.injEq] at h
      subst h
      rfl
    | _ :: _ => exact absurd h (by simp [parseStmtsF])
  | succ fuel ih =>
    intro ts ss h
    match ts with
    | [] =>
      simp only [parseStmtsF, Option.some.injEq] at h
      subst h
      rfl
    | t :: ts0 =>
      simp only [parseStmtsF] at h
      by_cases hcl : isClassHeaderLine t
      · rw [if_pos hcl] at h
        cases hh : parseClassHeader t with
        | none => rw [hh] at h; exact absurd h (by simp)
        | some hdr =>
          rw [hh] at h
          dsimp only at h
          cases hps : parseStmtsF fuel (ts0.dropWhile (inBody hdr.indent.length)) with
          | none => rw [hps] at h; exact absurd h (by simp)
          | some ss0 =>
            rw [hps] at h
            dsimp only at h
            simp only [Option.some.injEq] at h
            subst h
            have ihr := ih (ts0.dropWhile (inBody hdr.indent.length)) ss0 hps
            obtain ⟨hrend, _⟩ := parseClassHeader_render t hdr hh
            simp only [renderStmts, renderStmt, renderClassDef_body, hrend, ihr]
            have hsplit : ts0.takeWhile (inBody hdr.indent.length)
                ++ ts0.dropWhile (inBody hdr.indent.length) = ts0 :=
              List.takeWhile_append_dropWhile _ _
            calc t.render ++ joinToks (ts0.takeWhile (inBody hdr.indent.length))
                  ++ joinToks (ts0.dropWhile (inBody hdr.indent.length))
                = t.render ++ (joinToks (ts0.takeWhile (inBody hdr.indent.length))
                  ++ joinToks (ts0.dropWhile (inBody hdr.indent.length))) := by
                  simp [List.append_assoc]
              _ = t.render ++ joinToks ts0 := by rw [← joinToks_append, hsplit]
              _ = joinToks (t :: ts0) := rfl
      · rw [if_neg hcl] at h
        cases hps : parseStmtsF fuel ts0 with
        | none => rw [hps] at h; exact absurd h (by simp)
        | some ss0 =>
          rw [hps] at h
          dsimp only at h
          simp only [Option.some.injEq] at h
          subst h
          have ihr := ih ts0 ss0 hps
          simp only [renderStmts, renderStmt, ihr]
          rfl

theorem parseStmts_render (ts : List Tok) (ss : List Stmt)
    (h : parseStmts ts = some ss) : renderStmts ss = joinToks ts :=
  parseStmtsF_render ts.length ts ss h

/-- Claim C3: for every syntactically valid source text `T`, rendering the
tree obtained by parsing the token sequence obtained by tokenizing `T`
yields exactly `T` (`render(parse(tokenize(T))) = T`), when no edits are
applied. -/
theorem c3_round_trip (T : String) (m : Module) (h : parseSource T = some m) :
    renderSource m = T := by
  unfold parseSource parseModule at h
  cases hps : parseStmts (tokenize T) with
  | none => rw [hps] at h; exact absurd h (by simp)
  | some ss =>
    rw [hps] at h
    simp only [Option.map_some', Option.some.injEq] at h
    subst h
    unfold renderSource renderModule
    rw [parseStmts_render (tokenize T) ss hps, joinToks_tokenize]

/-- Witness for C3: the round-trip theorem applied at the concrete source
text of the autofix scenario. -/
theorem c3_round_trip_witness :
    (parseSource "class C(object):\n    pass\n").map renderSource
      = some "class C(object):\n    pass\n" := by
  cases hp : parseSource "class C(object):\n    pass\n" with
  | none =>
    have hs : (parseSource "class C(object):\n    pass\n").isSome = true := rfl
    rw [hp] at hs
    simp at hs
  | some m =>
    rw [Option.map_some', c3_round_trip _ m hp]

/-- Claim C1: with the no-object-base rule (`NoInheritFromObjectRule`) active
and autofix enabled, running the engine on the input source text
`"class C(object):\n    pass\n"` produces exactly the output text
`"class C:\n    pass\n"`, with the parentheses after the class name removed
because no bases or keywords remain after removing the `object` base. -/
theorem c1_autofix_scenario :
    (runEngine [noInheritLintRule] ctx0 srcC).map (fun r => r.output)
      = some "class C:\n    pass\n" := rfl

/-- Claim C2: for the fixed match pattern
`P = ClassDef(bases=[AtLeastN(1, Name("object"))])` (the tutorial's
`m.ClassDef(bases=[m.AtLeastN(n=1, matcher=m.Arg(value=m.Name("object")))])`,
a base being an `Arg` node), each of the three source texts parses to a
`ClassDef` node, and the matcher engine returns true when `P` is evaluated
against the node parsed from `class C(object): ...`, and false when
evaluated against the nodes parsed from `class C: ...` and from
`class C(Base): ...`. -/
theorem c2_matcher_correctness :
    (∃ c : ClassDef, classDefOf "class C(object): ..." = some c
        ∧ mMatches (.classDef c) objectBasePat = true)
  ∧ (∃ c : ClassDef, classDefOf "class C: ..." = some c
        ∧ mMatches (.classDef c) objectBasePat = false)
  ∧ (∃ c : ClassDef, classDefOf "class C(Base): ..." = some c
        ∧ mMatches (.classDef c) objectBasePat = false) :=
  ⟨⟨_, rfl, rfl⟩, ⟨_, rfl, rfl⟩, ⟨_, rfl, rfl⟩⟩

theorem applyHooks_recording (names : List String)
    (sel : NodeVisitor (List VEvent) → List VEvent → List VEvent)
    (g : String → VEvent)
    (hsel : ∀ n s, sel (recordingVisitor n) s = s ++ [g n]) :
    ∀ s, applyHooks ((names.map recordingVisitor).map sel) s = s ++ names.map g := by
  induction names with
  | nil => intro s; simp [applyHooks]
  | cons n ns ih =>
    intro s
    simp only [List.map_cons, applyHooks, hsel]
    rw [ih]
    simp [List.append_assoc]

mutual
theorem traverseNode_spec (names : List String) :
    ∀ (t : VTree) (s : List VEvent),
      traverseNode (names.map recordingVisitor) t s = s ++ specTraceNode names t
  | .node k slots, s => by
    rw [traverseNode, specTraceNode]
    rw [applyHooks_recording names (fun v => v.onEnter k) (fun n => VEvent.enter n k)
      (fun n s => rfl) s]
    rw [traverseSlots_spec names k slots]
    rw [applyHooks_recording names (fun v => v.onLeave k) (fun n => VEvent.leave n k)
      (fun n s => rfl)]
    simp [List.append_assoc]
theorem traverseSlots_spec (names : List String) (k : String) :
    ∀ (sl : List VSlot) (s : List VEvent),
      traverseSlots (names.map recordingVisitor) k sl s
        = s ++ specTraceSlots names k sl
  | [], s => by
    rw [traverseSlots, specTraceSlots]
    simp
  | .slot nm ch :: rest, s => by
    rw [traverseSlots, specTraceSlots]
    rw [applyHooks_recording names (fun v => v.onEnterSlot k nm)
      (fun n => VEvent.enterSlot n k nm) (fun n s => rfl) s]
    rw [traverseChildren_spec names ch]
    rw [applyHooks_recording names (fun v => v.onLeaveSlot k nm)
      (fun n => VEvent.leaveSlot n k nm) (fun n s => rfl)]
    rw [traverseSlots_spec names k rest]
    simp [List.append_assoc]
theorem traverseChildren_spec (names : List String) :
    ∀ (ts : List VTree) (s : List VEvent),
      traverseChildren (names.map recordingVisitor) ts s
        = s ++ specTraceChildren names ts
  | [], s => by
    rw [traverseChildren, specTraceChildren]
    simp
  | t :: ts, s => by
    rw [traverseChildren, specTraceChildren]
    rw [traverseNode_spec names t, traverseChildren_spec names ts]
    simp [List.append_assoc]
end

/-- Claim C4: in the callback trace of one traversal of any tree, for every
node and every registered visitor, `enter(parent)` is invoked before
`enter(parent, slot)` for every slot; `enter(parent, slot)` before any
callback for the children inside that slot; `leave(parent, slot)` after
returning from that slot and before the next slot's `enter`; the slots of a
node are visited in source order (left to right); and `leave(parent)` is
invoked last — i.e. the recorded trace of the traversal engine equals the
specification's prescribed trace, for every tree and every visitor list. -/
theorem c4_traversal_order (names : List String) (t : VTree) :
    traverseNode (names.map recordingVisitor) t [] = specTraceNode names t := by
  simpa using traverseNode_spec names t []

theorem mSeqMatches_atLeast_one (p : Pat) (ns : List MNode) :
    mSeqMatches ns (.atLeastSeq 1 p .nilSeq)
      = (!ns.isEmpty && ns.all (fun x => mMatches x p)) := by
  rw [Bool.eq_iff_iff]
  simp only [mSeqMatches, List.any_eq_true, List.mem_range, Bool.and_eq_true,
    decide_eq_true_eq, List.all_eq_true, Bool.not_eq_true', List.isEmpty_iff,
    List.isEmpty_eq_false]
  constructor
  · rintro ⟨j, hj, ⟨h1, hall⟩, hdrop⟩
    have hlen : ns.length ≤ j := List.drop_eq_nil_iff.mp hdrop
    have htake : ns.take j = ns := List.take_of_length_le hlen
    refine ⟨?_, by rw [← htake]; exact hall⟩
    intro hnil
    subst hnil
    simp only [List.length_nil] at hlen hj
    omega
  · rintro ⟨hne, hall⟩
    refine ⟨ns.length, Nat.lt_succ_self _, ⟨?_, ?_⟩, ?_⟩
    · have := List.length_pos.mpr hne
      omega
    · rw [List.take_length]
      exact hall
    · exact List.drop_length ns

theorem isEmpty_map_general {α β : Type} (f : α → β) (l : List α) :
    (l.map f).isEmpty = l.isEmpty := by
  cases l <;> rfl

theorem all_map_general {α β : Type} (f : α → β) (p : β → Bool) (l : List α) :
    (l.map f).all p = l.all (fun x => p (f x)) := by
  induction l with
  | nil => rfl
  | cons a l ih => simp only [List.map_cons, List.all_cons, ih]

theorem hasObjectBaseDeclarative_eq (node : ClassDef) :
    hasObjectBaseDeclarative node
      = (!node.bases.isEmpty && node.bases.all argMatchesObject) := by
  have h0 : hasObjectBaseDeclarative node
      = mSeqMatches (node.bases.map MNode.arg)
          (.atLeastSeq 1 (.argPat (.namePat "object".data)) .nilSeq) := rfl
  rw [h0, mSeqMatches_atLeast_one, isEmpty_map_general, all_map_general]
  rfl

theorem argMatchesObject_eq (b : RawArg) :
    argMatchesObject b
      = (match b.value with
         | .name v => v == "object".data
         | _ => false) := by
  cases hb : b.value with
  | name v =>
    have h1 : argMatchesObject b = mMatches (.expr b.value) (.namePat "object".data) := rfl
    rw [h1, hb]
    rfl
  | attrAccess o f =>
    have h1 : argMatchesObject b = mMatches (.expr b.value) (.namePat "object".data) := rfl
    rw [h1, hb]
    rfl

theorem hasObjectBaseImperative_eq (node : ClassDef) :
    hasObjectBaseImperative node = node.bases.any argMatchesObject := by
  unfold hasObjectBaseImperative
  congr 1
  funext arg
  rw [argMatchesObject_eq]

/-- Claim C9 counterexample: on the `ClassDef` parsed from
`class C(object, Base):`, the imperative check is true (`object` is among the
bases) while the declarative `m.ClassDef(bases=[m.AtLeastN(n=1, ...)])`
check is false (the sequence pattern must cover the whole bases sequence, and
`Base` does not match), so the two checks do not compute the same boolean. -/
theorem c9_counterexample :
    (classDefOf "class C(object, Base):").map
        (fun n => hasObjectBaseImperative n == hasObjectBaseDeclarative n)
      = some false := rfl

/-- Claim C9 (amended): the declarative check implies the imperative check,
and the two checks compute the same boolean exactly on those `ClassDef`
nodes whose bases are homogeneous — either every base's value matches
`Name("object")` or none does.  Equivalently, the two checks differ exactly
when an `object` base and a non-`object` base occur together: on a mixed
bases list the imperative check is true while the declarative check is
false. -/
theorem c9_amended_agreement (node : ClassDef) :
    (hasObjectBaseDeclarative node = true → hasObjectBaseImperative node = true)
  ∧ (hasObjectBaseImperative node = hasObjectBaseDeclarative node
      ↔ (node.bases.all argMatchesObject = true
          ∨ node.bases.all (fun b => !argMatchesObject b) = true)) := by
  rw [hasObjectBaseDeclarative_eq, hasObjectBaseImperative_eq]
  constructor
  · intro h
    simp only [Bool.and_eq_true, Bool.not_eq_true', List.isEmpty_eq_false] at h
    obtain ⟨hne, hall⟩ := h
    cases hbs : node.bases with
    | nil => exact absurd hbs hne
    | cons b bs =>
      rw [hbs] at hall
      simp only [List.all_cons, Bool.and_eq_true] at hall
      simp only [List.any_cons, hall.1, Bool.true_or]
  constructor
  · intro hagree
    by_contra hnot
    push_neg at hnot
    obtain ⟨h1, h2⟩ := hnot
    simp only [ne_eq, Bool.not_eq_true] at h1 h2
    obtain ⟨y, hy, hpy⟩ := List.all_eq_false.mp h2
    have hpy2 : argMatchesObject y = true := by
      simpa using hpy
    have hanyT : node.bases.any argMatchesObject = true :=
      List.any_eq_true.mpr ⟨y, hy, hpy2⟩
    have hallF : (!node.bases.isEmpty && node.bases.all argMatchesObject) = false := by
      rw [h1, Bool.and_false]
    rw [hanyT, hallF] at hagree
    exact absurd hagree (by simp)
  · intro h
    cases h with
    | inl hall =>
      cases hbs : node.bases with
      | nil => simp
      | cons b bs =>
        rw [hbs] at hall
        simp only [List.all_cons, Bool.and_eq_true] at hall
        simp only [List.any_cons, hall.1, Bool.true_or, List.isEmpty_cons,
          Bool.not_false, Bool.true_and, List.all_cons, hall.2, Bool.and_self]
    | inr hnone =>
      have hany : node.bases.any argMatchesObject = false := by
        simp only [List.all_eq_true, Bool.not_eq_true'] at hnone
        simp only [List.any_eq_false]
        intro x hx
        simp [hnone x hx]
      rw [hany]
      cases hbs : node.bases with
      | nil => simp
      | cons b bs =>
        rw [hbs] at hnone
        simp only [List.all_cons, Bool.and_eq_true, Bool.not_eq_true'] at hnone
        simp only [List.all_cons, hnone.1, Bool.false_and, Bool.and_false]

/-- Witness for C9 (amended), at the `ClassDef` of the autofix scenario: the
hypotheses of the implication and of both iff directions are discharged
concretely. -/
theorem c9_agreement_witness :
    hasObjectBaseImperative classCObj = true
  ∧ hasObjectBaseImperative classCObj = hasObjectBaseDeclarative classCObj
  ∧ (classCObj.bases.all argMatchesObject = true
      ∨ classCObj.bases.all (fun b => !argMatchesObject b) = true) :=
  ⟨(c9_amended_agreement classCObj).1 (by decide),
   (c9_amended_agreement classCObj).2.mpr (Or.inl (by decide)),
   (c9_amended_agreement classCObj).2.mp (by decide)⟩

/-- Claim C10: `NoInheritFromObjectRule` calls `report` at most once per
`ClassDef` node, and calls it exactly when at least one element of
`node.bases` has a value matching `Name("object")`; in the autofix version
the replacement node's bases are exactly the original bases whose value does
not match `Name("object")`, kept in their original relative order (a filter
of the original list), and a `ClassDef` with no `object` base produces no
report and no replacement. -/
theorem c10_rule_behavior (node : ClassDef) :
    (NoInheritFromObjectRule.visit_ClassDef node).length ≤ 1
  ∧ (NoInheritFromObjectRule.visit_ClassDef node ≠ []
      ↔ node.bases.any
          (fun b => mMatches (.expr b.value) (.namePat "object".data)) = true)
  ∧ (∀ rep ∈ NoInheritFromObjectRule.visit_ClassDef node, ∀ c : ClassDef,
      rep.replacement = some c →
      c.bases = node.bases.filter
          (fun b => !(mMatches (.expr b.value) (.namePat "object".data)))
        ∧ rep.message = NoInheritFromObjectRule.MESSAGE) := by
  have hiff : node.bases = node.bases.filter
        (fun b => !(mMatches (.expr b.value) (.namePat "object".data)))
      ↔ node.bases.any
          (fun b => mMatches (.expr b.value) (.namePat "object".data)) = false := by
    rw [eq_comm, List.filter_eq_self, List.any_eq_false]
    constructor
    · intro hx x hxm
      simpa using hx x hxm
    · intro hx x hxm
      simpa using hx x hxm
  unfold NoInheritFromObjectRule.visit_ClassDef
  dsimp only
  by_cases hc : node.bases = node.bases.filter
      (fun b => !(mMatches (.expr b.value) (.namePat "object".data)))
  · rw [if_neg (fun hne => hne hc)]
    refine ⟨by simp, ?_, by simp⟩
    constructor
    · intro hne
      exact absurd rfl hne
    · intro hany
      rw [hiff.mp hc] at hany
      exact absurd hany (by simp)
  · rw [if_pos hc]
    refine ⟨by simp, ?_, ?_⟩
    · constructor
      · intro _
        cases hany : node.bases.any
            (fun b => mMatches (.expr b.value) (.namePat "object".data)) with
        | true => rfl
        | false => exact absurd (hiff.mpr hany) hc
      · intro _
        simp
    · intro rep hrep c hcrep
      rw [List.mem_singleton] at hrep
      subst hrep
      simp only [Option.some.injEq] at hcrep
      subst hcrep
      exact ⟨rfl, rfl⟩

/-- Witness for C10 at the `ClassDef` of the autofix scenario: the rule
reports, and the replacement carries exactly the filtered bases. -/
theorem c10_rule_behavior_witness :
    (NoInheritFromObjectRule.visit_ClassDef classCObj ≠ [])
  ∧ classCFixed.bases
      = classCObj.bases.filter
          (fun b => !(mMatches (.expr b.value) (.namePat "object".data))) :=
  ⟨((c10_rule_behavior classCObj).2.1).mpr (by decide),
   ((c10_rule_behavior classCObj).2.2
      ⟨NoInheritFromObjectRule.MESSAGE, some classCFixed⟩ (by decide)
      classCFixed rfl).1⟩

/-- Claim C5: whenever two rules report replacements for the exact same node
and the replacements differ, the patch applier raises `ConflictingFixError`
(modelled by the conflict flag) rather than choosing one; autofix leaves the
file's text unmodified, and both violations are still reported. -/
theorem c5_conflicting_fix (rules : List LintRule) (ctx : Context) (src : String)
    (rep : LintReport) (v1 v2 : Violation) (a b : ClassDef)
    (hrun : runEngine rules ctx src = some rep)
    (h1 : v1 ∈ rep.violations) (h2 : v2 ∈ rep.violations)
    (hn : v1.nodeIdx = v2.nodeIdx)
    (ha : v1.replacement = some a) (hb : v2.replacement = some b) (hab : a ≠ b) :
    rep.conflict = true ∧ rep.output = src
      ∧ v1 ∈ rep.violations ∧ v2 ∈ rep.violations := by
  unfold runEngine at hrun
  cases hp : parseSource src with
  | none => rw [hp] at hrun; exact absurd hrun (by simp)
  | some m =>
    rw [hp] at hrun
    dsimp only at hrun
    cases haf : applyFixes m (collectViolations rules ctx m).violations with
    | none =>
      rw [haf] at hrun
      dsimp only at hrun
      simp only [Option.some.injEq] at hrun
      subst hrun
      exact ⟨rfl, rfl, h1, h2⟩
    | some m2 =>
      rw [haf] at hrun
      dsimp only at hrun
      simp only [Option.some.injEq] at hrun
      exfalso
      have hvs : rep.violations = (collectViolations rules ctx m).violations := by
        rw [← hrun]
      have hcf : hasConflict (collectViolations rules ctx m).violations = true := by
        rw [← hvs]
        unfold hasConflict
        rw [List.any_eq_true]
        refine ⟨v1, h1, ?_⟩
        rw [List.any_eq_true]
        refine ⟨v2, h2, ?_⟩
        simp [hn, ha, hb, hab]
      unfold applyFixes at haf
      rw [if_pos hcf] at haf
      exact absurd haf (by simp)

/-- Witness for C5: `NoInheritFromObjectRule` and a renaming rule propose
different replacements for the same class definition; the engine flags the
conflict, leaves the text unchanged and reports both violations. -/
theorem c5_conflicting_fix_witness :
    conflictReport.conflict = true ∧ conflictReport.output = srcC
      ∧ vFix ∈ conflictReport.violations ∧ vRename ∈ conflictReport.violations :=
  c5_conflicting_fix [noInheritLintRule, renameToDRule] ctx0 srcC conflictReport
    vFix vRename classCFixed classCRenamed rfl (by decide) (by decide) rfl rfl rfl
    (by decide)

theorem filterRule_append (j : Nat) (a b : TraversalOut) :
    TraversalOut.filterRule j (a.append b)
      = (TraversalOut.filterRule j a).append (TraversalOut.filterRule j b) := by
  simp [TraversalOut.filterRule, TraversalOut.append, List.filter_append]

theorem filter_all_or_none {α : Type} (p : α → Bool) (b : Bool) (l : List α)
    (hall : ∀ x ∈ l, p x = b) : l.filter p = if b then l else [] := by
  induction l with
  | nil => cases b <;> simp
  | cons x xs ih =>
    have hx := hall x (by simp)
    have ih2 := ih (fun y hy => hall y (by simp [hy]))
    cases b
    · simp only [List.filter_cons, hx]
      simp only [Bool.false_eq_true, if_false] at ih2
      simp [ih2]
    · simp only [List.filter_cons, hx]
      simp only [if_true] at ih2
      simp [ih2]

theorem runHook_filterRule (j' j : Nat) (r : LintRule) (i : Nat) (c : ClassDef) :
    TraversalOut.filterRule j (runHook j' r i c)
      = if j' == j then runHook j' r i c else ⟨[], [], []⟩ := by
  unfold runHook TraversalOut.filterRule
  cases hv : r.visitClassDef c with
  | ok reps =>
    dsimp only
    rw [filter_all_or_none _ (j' == j) _ ?hall1,
        filter_all_or_none _ (j' == j) ([] : List Fault) (by simp),
        filter_all_or_none _ (j' == j) [(⟨j', i⟩ : HookCall)] (by simp)]
    case hall1 =>
      intro x hx
      rw [List.mem_map] at hx
      obtain ⟨repc, _, hrep⟩ := hx
      rw [← hrep]
    cases (j' == j) <;> simp
  | error msg =>
    dsimp only
    rw [filter_all_or_none _ (j' == j) ([] : List Violation) (by simp),
        filter_all_or_none _ (j' == j) [(⟨j', i, msg⟩ : Fault)] (by simp),
        filter_all_or_none _ (j' == j) [(⟨j', i⟩ : HookCall)] (by simp)]
    cases (j' == j) <;> simp

theorem emptyOut_append (o : TraversalOut) :
    TraversalOut.append ⟨[], [], []⟩ o = o := by
  simp [TraversalOut.append]

theorem visitClassDefAll_filterRule (j : Nat) :
    ∀ (actives : List (Nat × LintRule)) (i : Nat) (c : ClassDef),
      TraversalOut.filterRule j (visitClassDefAll actives i c)
        = visitClassDefAll (actives.filter (fun p => p.1 == j)) i c := by
  intro actives
  induction actives with
  | nil => intro i c; rfl
  | cons p rs ih =>
    intro i c
    obtain ⟨j', r⟩ := p
    simp only [visitClassDefAll, List.filter_cons]
    rw [filterRule_append, runHook_filterRule, ih]
    cases hjj : (j' == j) with
    | true => simp [visitClassDefAll]
    | false => simp [emptyOut_append]

theorem visitStmt_filterRule (j : Nat) (actives : List (Nat × LintRule))
    (i : Nat) (s : Stmt) :
    TraversalOut.filterRule j (visitStmt actives i s)
      = visitStmt (actives.filter (fun p => p.1 == j)) i s := by
  cases s with
  | classDef c => exact visitClassDefAll_filterRule j actives i c
  | raw t => rfl

theorem collectFrom_filterRule (j : Nat) (actives : List (Nat × LintRule)) :
    ∀ (ss : List Stmt) (i : Nat),
      TraversalOut.filterRule j (collectFrom actives i ss)
        = collectFrom (actives.filter (fun p => p.1 == j)) i ss := by
  intro ss
  induction ss with
  | nil => intro i; rfl
  | cons s ss ih =>
    intro i
    simp only [collectFrom]
    rw [filterRule_append, visitStmt_filterRule, ih]

theorem enumRules_filter_lt :
    ∀ (l : List LintRule) (n m : Nat), m < n →
      (enumRules n l).filter (fun p => p.1 == m) = [] := by
  intro l
  induction l with
  | nil => intro n m _; rfl
  | cons r rs ih =>
    intro n m hm
    simp only [enumRules, List.filter_cons]
    have hne : (n == m) = false := by
      simp only [beq_eq_false_iff_ne, ne_eq]
      omega
    rw [hne]
    simp only [Bool.false_eq_true, if_false]
    exact ih (n + 1) m (by omega)

theorem enumRules_filter_eq :
    ∀ (l : List LintRule) (n k : Nat),
      (enumRules n l).filter (fun p => p.1 == n + k)
        = (match l[k]? with
           | some r => [(n + k, r)]
           | none => []) := by
  intro l
  induction l with
  | nil => intro n k; simp [enumRules]
  | cons r rs ih =>
    intro n k
    simp only [enumRules, List.filter_cons]
    cases k with
    | zero =>
      have : (n == n + 0) = true := by simp
      rw [this]
      simp only [if_true]
      rw [enumRules_filter_lt rs (n + 1) (n + 0) (by omega)]
      simp
    | succ k' =>
      have : (n == n + (k' + 1)) = false := by
        simp only [beq_eq_false_iff_ne, ne_eq]
        omega
      rw [this]
      simp only [Bool.false_eq_true, if_false]
      have harg : n + (k' + 1) = (n + 1) + k' := by omega
      rw [harg, ih (n + 1) k']
      rw [List.getElem?_cons_succ]

theorem activeRules_filter (rules : List LintRule) (ctx : Context) (j : Nat) :
    (activeRules rules ctx).filter (fun p => p.1 == j)
      = (match rules[j]? with
         | some r => if r.should_skip_file ctx then [] else [(j, r)]
         | none => []) := by
  unfold activeRules
  rw [List.filter_filter]
  have hcomm : (enumRules 0 rules).filter
        (fun a => a.1 == j && !a.2.should_skip_file ctx)
      = ((enumRules 0 rules).filter (fun p => p.1 == j)).filter
          (fun p => !p.2.should_skip_file ctx) := by
    rw [List.filter_filter]
    congr 1
    funext a
    rw [Bool.and_comm]
  rw [hcomm]
  have h0 : (enumRules 0 rules).filter (fun p => p.1 == j)
      = (match rules[j]? with
         | some r => [(j, r)]
         | none => []) := by
    have := enumRules_filter_eq rules 0 j
    simpa using this
  rw [h0]
  cases hr : rules[j]? with
  | none => rfl
  | some r =>
    dsimp only
    cases hskip : r.should_skip_file ctx with
    | true => simp [List.filter_cons, hskip]
    | false => simp [List.filter_cons, hskip]

theorem collectFrom_nil : ∀ (ss : List Stmt) (i : Nat),
    collectFrom [] i ss = ⟨[], [], []⟩ := by
  intro ss
  induction ss with
  | nil => intro i; rfl
  | cons s ss ih =>
    intro i
    simp only [collectFrom]
    have hs : visitStmt [] i s = ⟨[], [], []⟩ := by
      cases s <;> rfl
    rw [hs, ih, emptyOut_append]

/-- Claim C6: for every file and every rule whose `should_skip_file`
predicate returns true for the file's context, the engine invokes none of
that rule's visitor hooks (no hook-call trace entry is attributed to it) and
that rule reports zero violations, regardless of the file's content. -/
theorem c6_skip_file (rules : List LintRule) (ctx : Context) (m : Module)
    (j : Nat) (r : LintRule) (hj : rules[j]? = some r)
    (hskip : r.should_skip_file ctx = true) :
    (∀ h ∈ (collectViolations rules ctx m).hookCalls, h.ruleIdx ≠ j)
  ∧ (∀ v ∈ (collectViolations rules ctx m).violations, v.ruleIdx ≠ j) := by
  have hfil : TraversalOut.filterRule j (collectViolations rules ctx m)
      = ⟨[], [], []⟩ := by
    unfold collectViolations
    rw [collectFrom_filterRule, activeRules_filter, hj]
    dsimp only
    rw [if_pos hskip]
    exact collectFrom_nil m.stmts 0
  constructor
  · intro h hmem
    have hh := congrArg TraversalOut.hookCalls hfil
    simp only [TraversalOut.filterRule] at hh
    have := List.filter_eq_nil_iff.mp hh h hmem
    simpa using this
  · intro v hmem
    have hh := congrArg TraversalOut.violations hfil
    simp only [TraversalOut.filterRule] at hh
    have := List.filter_eq_nil_iff.mp hh v hmem
    simpa using this

/-- Witness for C6: the notebook's `MyRule.should_skip_file` returns true in
a test-designated context; the engine then attributes no hook call and no
violation to that rule. -/
theorem c6_skip_file_witness :
    (∀ h ∈ (collectViolations [skipInTestsRule] ctxTests moduleC).hookCalls,
        h.ruleIdx ≠ 0)
  ∧ (∀ v ∈ (collectViolations [skipInTestsRule] ctxTests moduleC).violations,
        v.ruleIdx ≠ 0) :=
  c6_skip_file [skipInTestsRule] ctxTests moduleC 0 skipInTestsRule rfl rfl

/-- Claim C8: a rule raising an unexpected fault inside a hook is caught at
the per-rule, per-hook boundary: every fault is recorded attributed to its
rule and node, and traversal continues so that every other registered rule
still runs to completion — each non-skipped rule's violations and faults in
the combined run equal exactly those of its solo run, regardless of what the
other rules do. -/
theorem c8_fault_isolation (rules : List LintRule) (ctx : Context) (m : Module)
    (j : Nat) (r : LintRule) (hj : rules[j]? = some r)
    (hact : r.should_skip_file ctx = false) :
    (collectViolations rules ctx m).violations.filter (fun v => v.ruleIdx == j)
      = (collectFrom [(j, r)] 0 m.stmts).violations
  ∧ (collectViolations rules ctx m).faults.filter (fun f => f.ruleIdx == j)
      = (collectFrom [(j, r)] 0 m.stmts).faults := by
  have hfil : TraversalOut.filterRule j (collectViolations rules ctx m)
      = collectFrom [(j, r)] 0 m.stmts := by
    unfold collectViolations
    rw [collectFrom_filterRule, activeRules_filter, hj]
    dsimp only
    rw [if_neg (by rw [hact]; simp)]
  exact ⟨congrArg TraversalOut.violations hfil, congrArg TraversalOut.faults hfil⟩

/-- Witness for C8: with a faulting rule registered before
`NoInheritFromObjectRule`, the latter's violations and faults in the
combined run equal its solo run on the same module. -/
theorem c8_fault_isolation_witness :
    (collectViolations [faultyRule, noInheritLintRule] ctx0 moduleC).violations.filter
        (fun v => v.ruleIdx == 1)
      = (collectFrom [(1, noInheritLintRule)] 0 moduleC.stmts).violations
  ∧ (collectViolations [faultyRule, noInheritLintRule] ctx0 moduleC).faults.filter
        (fun f => f.ruleIdx == 1)
      = (collectFrom [(1, noInheritLintRule)] 0 moduleC.stmts).faults :=
  c8_fault_isolation [faultyRule, noInheritLintRule] ctx0 moduleC 1
    noInheritLintRule rfl rfl

theorem renderStmts_append (l1 l2 : List Stmt) :
    renderStmts (l1 ++ l2) = renderStmts l1 ++ renderStmts l2 := by
  induction l1 with
  | nil => rfl
  | cons s l ih => simp [renderStmts, ih]

theorem applyRepl_noTarget (v : Violation) :
    ∀ (ss : List Stmt) (n : Nat), v.nodeIdx < n → applyRepl [v] n ss = ss := by
  intro ss
  induction ss with
  | nil => intro n _; rfl
  | cons s ss ih =>
    intro n hn
    have hrf : replacementFor [v] n = none := by
      unfold replacementFor
      have hne : (v.nodeIdx == n && v.replacement.isSome) = false := by
        have : (v.nodeIdx == n) = false := by
          simp only [beq_eq_false_iff_ne, ne_eq]
          omega
        simp [this]
      simp [List.find?_cons, hne]
    simp only [applyRepl, hrf]
    rw [ih (n + 1) (by omega)]

theorem applyRepl_at (v : Violation) (c : ClassDef) (hc : v.replacement = some c) :
    ∀ (k : Nat) (ss : List Stmt) (n : Nat), v.nodeIdx = n + k → k < ss.length →
      applyRepl [v] n ss
        = ss.take k ++ Stmt.classDef c :: ss.drop (k + 1) := by
  intro k
  induction k with
  | zero =>
    intro ss n hn hk
    cases ss with
    | nil => simp at hk
    | cons s ss0 =>
      have hrf : replacementFor [v] n = some c := by
        unfold replacementFor
        have hb : (v.nodeIdx == n) = true := by simp [hn]
        simp [List.find?_cons, hb, hc]
      simp only [applyRepl, hrf]
      rw [applyRepl_noTarget v ss0 (n + 1) (by omega)]
      simp

  | succ k' ih =>
    intro ss n hn hk
    cases ss with
    | nil => simp at hk
    | cons s ss0 =>
      have hrf : replacementFor [v] n = none := by
        unfold replacementFor
        have hne : (v.nodeIdx == n && v.replacement.isSome) = false := by
          have : (v.nodeIdx == n) = false := by
            simp only [beq_eq_false_iff_ne, ne_eq]
            omega
          simp [this]
        simp [List.find?_cons, hne]
      simp only [applyRepl, hrf]
      rw [ih ss0 (n + 1) (by omega) (by simpa using hk)]
      rw [List.take_succ_cons, List.drop_succ_cons]
      rfl

/-- Claim C7: applying one reported replacement and re-rendering changes only
the byte range covered by the replaced node: the rendering of the patched
module is the original prefix, then the replacement's rendering, then the
original suffix, while the original rendering is the same prefix, the
original node's rendering, and the same suffix. -/
theorem c7_replacement_locality (m : Module) (v : Violation) (c : ClassDef)
    (m2 : Module) (s : Stmt)
    (hc : v.replacement = some c)
    (hs : m.stmts[v.nodeIdx]? = some s)
    (happ : applyFixes m [v] = some m2) :
    renderModule m2
      = renderStmts (m.stmts.take v.nodeIdx) ++ renderStmt (Stmt.classDef c)
        ++ renderStmts (m.stmts.drop (v.nodeIdx + 1))
  ∧ renderModule m
      = renderStmts (m.stmts.take v.nodeIdx) ++ renderStmt s
        ++ renderStmts (m.stmts.drop (v.nodeIdx + 1)) := by
  have hlt : v.nodeIdx < m.stmts.length := by
    by_contra hge
    push_neg at hge
    rw [List.getElem?_eq_none hge] at hs
    exact absurd hs (by simp)
  unfold applyFixes at happ
  cases hcf : hasConflict [v] with
  | true => rw [if_pos hcf] at happ; exact absurd happ (by simp)
  | false =>
    rw [if_neg (by rw [hcf]; simp)] at happ
    simp only [Option.some.injEq] at happ
    have hrepl := applyRepl_at v c hc v.nodeIdx m.stmts 0 (by omega) hlt
    have hsval : m.stmts[v.nodeIdx] = s := by
      rw [List.getElem?_eq_getElem hlt] at hs
      exact Option.some.inj hs
    constructor
    · rw [← happ]
      show renderStmts (applyRepl [v] 0 m.stmts) = _
      rw [hrepl, renderStmts_append]
      simp [renderStmts, List.append_assoc]
    · have hdecomp : m.stmts
          = m.stmts.take v.nodeIdx ++ s :: m.stmts.drop (v.nodeIdx + 1) := by
        conv_lhs => rw [← List.take_append_drop v.nodeIdx m.stmts]
        rw [List.drop_eq_getElem_cons hlt, hsval]
      show renderStmts m.stmts = _
      conv_lhs => rw [hdecomp]
      rw [renderStmts_append]
      simp [renderStmts, List.append_assoc]

/-- Witness for C7: applying the autofix replacement at the concrete module
of the autofix scenario. -/
theorem c7_replacement_locality_witness :
    renderModule ⟨[Stmt.classDef classCFixed]⟩
      = renderStmts (moduleC.stmts.take vFix.nodeIdx)
        ++ renderStmt (Stmt.classDef classCFixed)
        ++ renderStmts (moduleC.stmts.drop (vFix.nodeIdx + 1))
  ∧ renderModule moduleC
      = renderStmts (moduleC.stmts.take vFix.nodeIdx)
        ++ renderStmt (Stmt.classDef classCObj)
        ++ renderStmts (moduleC.stmts.drop (vFix.nodeIdx + 1)) :=
  c7_replacement_locality moduleC vFix classCFixed ⟨[Stmt.classDef classCFixed]⟩
    (Stmt.classDef classCObj) rfl rfl rfl

end Fixit
